import Mathlib

/-!
Verification of the symergion repository against its specification.

The Python sources are shallowly embedded: strings become `List Char`,
Python lists become Lean lists, stateful methods become functions on
explicit state, exceptions become `Except`/`Option`, and the calls into
external collaborators (git subprocesses, model endpoints, the file
system) become explicit parameters recording their observable results.
-/

/-! ## utils/list.py — CustomList -/

section CustomListEmbedding

variable {α : Type} [DecidableEq α]

/-- Occurrence count of a value in a list; embeds `collections.Counter`
lookup used by `CustomList.__sub__` (a missing key counts as 0). -/
def cnt : List α → α → Nat
  | [], _ => 0
  | x :: xs, a => (if x = a then 1 else 0) + cnt xs a

/-- Pointwise decrement of a multiplicity function at one value; embeds
`result_counter[e] -= 1` in `CustomList.__sub__`. -/
def decAt (d : α → Nat) (a : α) : α → Nat :=
  fun x => if x = a then d a - 1 else d x

/-- The keep-scan of `CustomList.__sub__`: walk the (already reversed)
copy of the list, keep an element while its remaining demand is positive,
decrementing the demand on each kept occurrence. -/
def kee (d : α → Nat) : List α → List α
  | [] => []
  | e :: rest => if 0 < d e then e :: kee (decAt d e) rest else kee d rest

/-- `CustomList.__sub__`: demand for each value is
`Counter(self) - Counter(other)` (clamped at 0, as Python `Counter`
subtraction does), the reversed list is scanned keeping while demand
remains, and the kept sequence is reversed back. -/
def csub (A B : List α) : List α :=
  (kee (fun x => cnt A x - cnt B x) A.reverse).reverse

/-- Drop-scan used to state the specification's order policy: walk the
list from the front and drop an occurrence while its drop budget is
positive, decrementing the budget on each dropped occurrence. -/
def drp (b : α → Nat) : List α → List α
  | [] => []
  | e :: rest => if 0 < b e then drp (decAt b e) rest else e :: drp b rest

/-- Specification-side definition of `subtract(A, B)`, written from the
spec's words: for every value, its `min(countA, countB)` earliest
occurrences in A are dropped and the remaining (latest) occurrences are
kept in A's original order. -/
def subtractSpec (A B : List α) : List α :=
  drp (fun x => min (cnt A x) (cnt B x)) A

/-- `CustomList.__contains__` for a non-string iterable argument: first
the loop checking that each element of `other` occurs in the list, then
indexing `other[0]` (an `IndexError` on an empty `other`, modelled as
`none`), then comparing the window of `self` starting at the first index
of `other[0]` with `other`.  Elements are treated as atoms, which is how
the recursive `item not in self` bottoms out for the strings and tuples
the repository stores in these lists. -/
def customContains (A other : List α) : Option Bool :=
  if other.all (fun x => decide (x ∈ A)) then
    match other with
    | [] => none
    | o :: _ =>
      some (decide ((A.drop (A.findIdx (fun y => decide (y = o)))).take other.length = other))
  else some false

theorem cnt_append (l r : List α) (x : α) : cnt (l ++ r) x = cnt l x + cnt r x := by
  induction l with
  | nil => simp [cnt]
  | cons e t ih => simp [cnt, ih]; omega

theorem cnt_reverse (l : List α) (x : α) : cnt l.reverse x = cnt l x := by
  induction l with
  | nil => rfl
  | cons e t ih => simp [cnt, List.reverse_cons, cnt_append, ih]; omega

theorem cnt_cons_eq (e : α) (t : List α) : cnt (e :: t) e = cnt t e + 1 := by
  simp [cnt]; omega

theorem cnt_cons_ne {e a : α} (t : List α) (h : e ≠ a) : cnt (e :: t) a = cnt t a := by
  simp [cnt, if_neg h]

theorem decAt_eq (d : α → Nat) (a : α) : decAt d a a = d a - 1 := by
  simp [decAt]

theorem decAt_ne (d : α → Nat) {a x : α} (h : x ≠ a) : decAt d a x = d x := by
  simp [decAt, if_neg h]

theorem drp_congr : ∀ (l : List α) (b b' : α → Nat),
    (∀ x, b x = b' x ∨ (cnt l x ≤ b x ∧ cnt l x ≤ b' x)) → drp b l = drp b' l := by
  intro l
  induction l with
  | nil => intro b b' _; rfl
  | cons e t ih =>
    intro b b' h
    have he := h e
    have hcnt : cnt (e :: t) e = cnt t e + 1 := cnt_cons_eq e t
    rw [hcnt] at he
    have hcases : (0 < b e ∧ 0 < b' e) ∨ (b e = 0 ∧ b' e = 0) := by omega
    rcases hcases with ⟨hb, hb'⟩ | ⟨hb, hb'⟩
    · simp only [drp, if_pos hb, if_pos hb']
      apply ih
      intro x
      by_cases hxe : x = e
      · subst hxe
        rw [decAt_eq, decAt_eq]
        rcases he with he | he
        · left; rw [he]
        · right; omega
      · rw [decAt_ne b hxe, decAt_ne b' hxe]
        rcases h x with hx | hx
        · left; exact hx
        · right; rw [cnt_cons_ne t (Ne.symm hxe)] at hx; exact hx
    · simp only [drp, if_neg (by omega : ¬ 0 < b e), if_neg (by omega : ¬ 0 < b' e)]
      congr 1
      apply ih
      intro x
      rcases h x with hx | hx
      · left; exact hx
      · right
        by_cases hxe : x = e
        · subst hxe; rw [hcnt] at hx; omega
        · rw [cnt_cons_ne t (Ne.symm hxe)] at hx; exact hx

theorem drp_append (r : List α) : ∀ (l : List α) (b : α → Nat),
    drp b (l ++ r) = drp b l ++ drp (fun x => b x - cnt l x) r := by
  intro l
  induction l with
  | nil =>
    intro b
    simp only [List.nil_append, drp]
    have hf : (fun x => b x - cnt ([] : List α) x) = b := by
      funext x; simp [cnt]
    rw [hf]
  | cons e t ih =>
    intro b
    by_cases hbe : 0 < b e
    · rw [List.cons_append]
      simp only [drp, if_pos hbe]
      rw [ih (decAt b e)]
      have hf : (fun x => decAt b e x - cnt t x) = fun x => b x - cnt (e :: t) x := by
        funext x
        by_cases hxe : x = e
        · subst hxe; rw [decAt_eq, cnt_cons_eq]; omega
        · rw [decAt_ne b hxe, cnt_cons_ne t (Ne.symm hxe)]
      rw [hf]
    · rw [List.cons_append]
      simp only [drp, if_neg hbe]
      rw [ih b, List.cons_append]
      have hf : (fun x => b x - cnt t x) = fun x => b x - cnt (e :: t) x := by
        funext x
        by_cases hxe : x = e
        · subst hxe; rw [cnt_cons_eq]; omega
        · rw [cnt_cons_ne t (Ne.symm hxe)]
      rw [hf]

theorem drp_singleton (b : α → Nat) (e : α) : drp b [e] = if 0 < b e then [] else [e] := by
  by_cases h : 0 < b e
  · simp [drp, h]
  · simp [drp, h]

theorem kee_rev : ∀ (m : List α) (d : α → Nat),
    (kee d m).reverse = drp (fun x => cnt m x - d x) m.reverse := by
  intro m
  induction m with
  | nil => intro d; rfl
  | cons e r ih =>
    intro d
    simp only [List.reverse_cons, drp_append, drp_singleton]
    by_cases hde : 0 < d e
    · have hb0 : ¬ 0 < cnt (e :: r) e - d e - cnt r.reverse e := by
        rw [cnt_cons_eq, cnt_reverse]; omega
      rw [if_neg hb0]
      simp only [kee, if_pos hde, List.reverse_cons]
      rw [ih (decAt d e)]
      have hf : (fun x => cnt r x - decAt d e x) = fun x => cnt (e :: r) x - d x := by
        funext x
        by_cases hxe : x = e
        · subst hxe; rw [decAt_eq, cnt_cons_eq]; omega
        · rw [decAt_ne d hxe, cnt_cons_ne r (Ne.symm hxe)]
      rw [hf]
    · have hb1 : 0 < cnt (e :: r) e - d e - cnt r.reverse e := by
        rw [cnt_cons_eq, cnt_reverse]; omega
      rw [if_pos hb1, List.append_nil]
      simp only [kee, if_neg hde]
      rw [ih d]
      apply drp_congr
      intro x
      by_cases hxe : x = e
      · subst hxe
        right
        show cnt r.reverse x ≤ cnt r x - d x ∧ cnt r.reverse x ≤ cnt (x :: r) x - d x
        rw [cnt_reverse, cnt_cons_eq]
        omega
      · left
        show cnt r x - d x = cnt (e :: r) x - d x
        rw [cnt_cons_ne r (Ne.symm hxe)]

theorem cnt_drp : ∀ (l : List α) (b : α → Nat) (x : α),
    cnt (drp b l) x = cnt l x - b x := by
  intro l
  induction l with
  | nil => intro b x; simp [drp, cnt]
  | cons e t ih =>
    intro b x
    by_cases hbe : 0 < b e
    · simp only [drp, if_pos hbe]
      rw [ih]
      by_cases hxe : x = e
      · subst hxe; rw [decAt_eq, cnt_cons_eq]; omega
      · rw [decAt_ne b hxe, cnt_cons_ne t (Ne.symm hxe)]
    · simp only [drp, if_neg hbe]
      by_cases hex : x = e
      · subst hex; rw [cnt_cons_eq, cnt_cons_eq, ih]
        omega
      · rw [cnt_cons_ne (drp b t) (Ne.symm hex), cnt_cons_ne t (Ne.symm hex), ih]

theorem drp_sublist (l : List α) : ∀ b : α → Nat, (drp b l).Sublist l := by
  induction l with
  | nil => intro b; simp [drp]
  | cons e t ih =>
    intro b
    by_cases hbe : 0 < b e
    · simpa [drp, if_pos hbe] using List.Sublist.cons e (ih (decAt b e))
    · simpa [drp, if_neg hbe] using List.Sublist.cons₂ e (ih b)

theorem csub_eq_subtractSpec (A B : List α) : csub A B = subtractSpec A B := by
  unfold csub subtractSpec
  rw [kee_rev A.reverse (fun x => cnt A x - cnt B x)]
  rw [List.reverse_reverse]
  have hfun : (fun x => cnt A.reverse x - (cnt A x - cnt B x))
      = fun x => min (cnt A x) (cnt B x) := by
    funext x; rw [cnt_reverse]; omega
  rw [hfun]

end CustomListEmbedding

/-- C2: `CustomList.__sub__` is exactly the specified multiset
subtraction: it agrees with the spec-side drop-earliest definition, every
value survives with `max(0, countA - countB)` occurrences (`Nat`
subtraction), and the survivors form a sublist of A, hence keep A's
original relative order with the earliest duplicates dropped. -/
theorem c2_subtract_spec {α : Type} [DecidableEq α] (A B : List α) :
    csub A B = subtractSpec A B ∧
    (∀ x, cnt (csub A B) x = cnt A x - cnt B x) ∧
    (csub A B).Sublist A := by
  refine ⟨csub_eq_subtractSpec A B, ?_, ?_⟩
  · intro x
    rw [csub_eq_subtractSpec, subtractSpec, cnt_drp]
    omega
  · rw [csub_eq_subtractSpec]
    exact drp_sublist A _

/-- C4: for a non-empty candidate sequence whose first element occurs in
the list, `CustomList.__contains__` returns a boolean (no error), and it
returns `True` exactly when every element of the sequence occurs in the
list and the window of the list starting at the first index of the
sequence's head, of the sequence's length, equals the sequence. -/
theorem c4_contains_subsequence {α : Type} [DecidableEq α]
    (A seq : List α) (a : α) (hhead : seq.head? = some a) (ha : a ∈ A) :
    (customContains A seq = some true ↔
      ((∀ x ∈ seq, x ∈ A) ∧
        (A.drop (A.findIdx (fun y => decide (y = a)))).take seq.length = seq)) ∧
    (∃ b, customContains A seq = some b) := by
  match seq, hhead with
  | a :: t, rfl =>
    by_cases hall : (a :: t).all (fun x => decide (x ∈ A))
    · have hmem : ∀ x ∈ a :: t, x ∈ A := by
        intro x hx
        have := List.all_eq_true.mp hall x hx
        exact of_decide_eq_true this
      constructor
      · constructor
        · intro hres
          refine ⟨hmem, ?_⟩
          simp only [customContains, if_pos hall] at hres
          have := Option.some.inj hres
          exact of_decide_eq_true this
        · intro ⟨_, hwin⟩
          simp only [customContains, if_pos hall]
          exact congrArg some (decide_eq_true hwin)
      · refine ⟨decide ((A.drop (A.findIdx (fun y => decide (y = a)))).take
          (a :: t).length = a :: t), ?_⟩
        simp only [customContains, if_pos hall]
    · have hnotall : ¬ ∀ x ∈ a :: t, x ∈ A := by
        intro hmem
        exact hall (List.all_eq_true.mpr (fun x hx => decide_eq_true (hmem x hx)))
      constructor
      · constructor
        · intro hres
          simp only [customContains, if_neg hall] at hres
          exact absurd (Option.some.inj hres) (by simp)
        · intro ⟨hmem, _⟩
          exact absurd hmem hnotall
      · exact ⟨false, by simp only [customContains, if_neg hall]⟩

/-- C4 witness: a concrete instantiation discharging both hypotheses. -/
theorem c4_contains_subsequence_witness :
    customContains [1, 2, 3] [2, 3] = some true :=
  ((c4_contains_subsequence [1, 2, 3] [2, 3] 2 rfl (by decide)).1).mpr
    (by refine ⟨?_, by decide⟩; intro x hx; fin_cases hx <;> decide)

/-- C9: `CustomList.__contains__` applied to an empty non-string sequence
unconditionally indexes its first element and therefore raises an
`IndexError` (modelled as `none`) instead of returning a boolean. -/
theorem c9_contains_empty_raises {α : Type} [DecidableEq α] (A : List α) :
    customContains A ([] : List α) = none := rfl

/-! ## ergon/prompt.py — Prompt.format_reasoning -/

/-- The boilerplate the formatter forces onto the end of a reasoning
text: a newline followed by the fixed sentence appended by
`Prompt.format_reasoning`. -/
def laconicSuffix : List Char :=
  ("\nBeing laconic and return code only is at high importance").toList

/-- First statement of `Prompt.format_reasoning`: prepend a newline
unless the text already starts with one.  Strings are embedded as
`List Char`; the source indexes `reasoning[0]`, which on a non-empty
string is the `head?` check. -/
def ensureLeadingNewline (r : List Char) : List Char :=
  if r.head? ≠ some '\n' then '\n' :: r else r

/-- `Prompt.format_reasoning`: prepend a newline unless the text already
starts with one, then append the laconic suffix unless the text already
ends with it. -/
def format_reasoning (r : List Char) : List Char :=
  if ¬ (laconicSuffix <:+ ensureLeadingNewline r) then
    ensureLeadingNewline r ++ laconicSuffix
  else ensureLeadingNewline r

theorem ensureLeadingNewline_head (r : List Char) :
    (ensureLeadingNewline r).head? = some '\n' ∨ ensureLeadingNewline r = r := by
  unfold ensureLeadingNewline
  by_cases h : r.head? = some '\n'
  · right; rw [if_neg (by simp [h])]
  · left; rw [if_pos (by simp [h])]; rfl

theorem ensureLeadingNewline_head_of_ne_nil (r : List Char) (_hr : r ≠ []) :
    (ensureLeadingNewline r).head? = some '\n' := by
  rcases ensureLeadingNewline_head r with h | h
  · exact h
  · rw [h]
    unfold ensureLeadingNewline at h
    by_cases hh : r.head? = some '\n'
    · exact hh
    · rw [if_pos (by simp [hh])] at h
      exact absurd h (List.cons_ne_self _ _)

theorem format_reasoning_head (r : List Char) (hr : r ≠ []) :
    (format_reasoning r).head? = some '\n' := by
  have hne : ensureLeadingNewline r ≠ [] := by
    unfold ensureLeadingNewline
    by_cases h : r.head? = some '\n'
    · rw [if_neg (by simp [h])]; exact hr
    · rw [if_pos (by simp [h])]; simp
  unfold format_reasoning
  by_cases h2 : laconicSuffix <:+ ensureLeadingNewline r
  · rw [if_neg (by simp [h2])]
    exact ensureLeadingNewline_head_of_ne_nil r hr
  · rw [if_pos (by simp [h2])]
    rw [List.head?_append_of_ne_nil _ hne]
    exact ensureLeadingNewline_head_of_ne_nil r hr

theorem format_reasoning_suffix (r : List Char) :
    laconicSuffix <:+ format_reasoning r := by
  unfold format_reasoning
  by_cases h2 : laconicSuffix <:+ ensureLeadingNewline r
  · rw [if_neg (by simp [h2])]
    exact h2
  · rw [if_pos (by simp [h2])]
    exact List.suffix_append _ _

theorem format_reasoning_fixed (s : List Char) (h1 : s.head? = some '\n')
    (h2 : laconicSuffix <:+ s) : format_reasoning s = s := by
  have he : ensureLeadingNewline s = s := by
    unfold ensureLeadingNewline
    rw [if_neg (by simp [h1])]
  unfold format_reasoning
  rw [he, if_neg (by simp [h2])]

/-- C10: on every non-empty reasoning text the formatter's output starts
with a newline, ends with the laconic suffix, and the formatter is
idempotent. -/
theorem c10_format_reasoning (r : List Char) (hr : r ≠ []) :
    (format_reasoning r).head? = some '\n' ∧
    laconicSuffix <:+ format_reasoning r ∧
    format_reasoning (format_reasoning r) = format_reasoning r :=
  ⟨format_reasoning_head r hr, format_reasoning_suffix r,
    format_reasoning_fixed _ (format_reasoning_head r hr) (format_reasoning_suffix r)⟩

/-- C10 witness: the formatter applied to a concrete one-character
reasoning text. -/
theorem c10_format_reasoning_witness :
    (format_reasoning ("x").toList).head? = some '\n' :=
  (c10_format_reasoning ("x").toList (by decide)).1

/-! ## git/repository.py — Repo.run_command -/

/-- A completed subprocess, mirroring the fields of
`subprocess.CompletedProcess` that `Repo.run_command` inspects or
returns. -/
structure CompletedProcess where
  stdout : List Char
  stderr : List Char
  returncode : Int
deriving DecidableEq

/-- Consume an exact literal from the front of a character list; `none`
when the list does not start with the literal.  Used to embed anchored
literal regex matching. -/
def dropLit : List Char → List Char → Option (List Char)
  | [], s => some s
  | _ :: _, [] => none
  | c :: cs, d :: ds => if c = d then dropLit cs ds else none

/-- The regex `^fatal: [\s\S]+` of `Repo.run_command`: the stderr text
must start with the literal `"fatal: "` and have at least one further
character. -/
def matchesFatal (s : List Char) : Bool :=
  match dropLit ("fatal: ").toList s with
  | some rest => !rest.isEmpty
  | none => false

/-- `Repo.run_command`, given the completed process observed from the
spawned git command: raise (`Except.error`, carrying the stderr) exactly
when the fatal regex matches, otherwise return the completed process
unchanged. -/
def run_command (p : CompletedProcess) : Except (List Char) CompletedProcess :=
  if matchesFatal p.stderr then Except.error p.stderr else Except.ok p

theorem dropLit_some_iff (lit : List Char) : ∀ (s r : List Char),
    dropLit lit s = some r ↔ s = lit ++ r := by
  induction lit with
  | nil =>
    intro s r
    simp [dropLit, eq_comm]
  | cons c cs ih =>
    intro s r
    match s with
    | [] => simp [dropLit]
    | d :: ds =>
      by_cases hcd : c = d
      · subst hcd
        simp [dropLit, ih ds r]
      · simp [dropLit, if_neg hcd]
        intro hdc
        exact absurd hdc.symm hcd

theorem matchesFatal_iff (s : List Char) :
    matchesFatal s = true ↔
      (("fatal: ").toList <+: s ∧ ("fatal: ").toList.length < s.length) := by
  unfold matchesFatal
  match hdl : dropLit ("fatal: ").toList s with
  | some rest =>
    rw [dropLit_some_iff] at hdl
    subst hdl
    simp only [Bool.not_eq_true']
    constructor
    · intro h
      refine ⟨List.prefix_append _ _, ?_⟩
      have : rest ≠ [] := by
        intro hrest
        rw [hrest] at h
        simp at h
      have : 0 < rest.length := List.length_pos.mpr this
      simp [List.length_append]
      omega
    · intro ⟨_, hlen⟩
      simp only [List.length_append] at hlen
      have : rest ≠ [] := by
        intro hrest
        rw [hrest] at hlen
        simp at hlen
      simp [List.isEmpty_iff, this]
  | none =>
    constructor
    · intro h; exact absurd h (by simp)
    · intro ⟨⟨tail, htail⟩, hlen⟩
      have : dropLit ("fatal: ").toList s = some tail :=
        (dropLit_some_iff _ s tail).mpr htail.symm
      rw [hdl] at this
      exact absurd this (by simp)

/-- C6: `Repo.run_command` raises if and only if the command's stderr
begins with `"fatal: "` followed by at least one further character; in
every other case — regardless of the exit code — no failure is raised
and the completed process is returned unchanged. -/
theorem c6_run_command_fatal (p : CompletedProcess) :
    ((∃ e, run_command p = Except.error e) ↔
      (("fatal: ").toList <+: p.stderr ∧ ("fatal: ").toList.length < p.stderr.length)) ∧
    (¬ (("fatal: ").toList <+: p.stderr ∧ ("fatal: ").toList.length < p.stderr.length) →
      run_command p = Except.ok p) := by
  constructor
  · constructor
    · intro ⟨e, he⟩
      unfold run_command at he
      by_cases hm : matchesFatal p.stderr
      · exact (matchesFatal_iff p.stderr).mp hm
      · rw [if_neg (by simpa using hm)] at he
        exact absurd he (by simp)
    · intro h
      refine ⟨p.stderr, ?_⟩
      unfold run_command
      rw [if_pos (by simpa using (matchesFatal_iff p.stderr).mpr h)]
  · intro h
    unfold run_command
    have hm : matchesFatal p.stderr = false := by
      by_cases hm : matchesFatal p.stderr
      · exact absurd ((matchesFatal_iff p.stderr).mp hm) h
      · simpa using hm
    rw [if_neg (by simp [hm])]

/-- C6 witness: a concrete process with non-zero exit code and a
non-fatal stderr is returned unchanged. -/
theorem c6_run_command_fatal_witness :
    run_command ⟨[], ("error: no upstream").toList, 1⟩
      = Except.ok ⟨[], ("error: no upstream").toList, 1⟩ :=
  (c6_run_command_fatal ⟨[], ("error: no upstream").toList, 1⟩).2 (by decide)

/-! ## git/branches.py — Branches (the Branch Mirror) -/

/-- The Branch Mirror state: the optional feature branch anchor and the
underlying list contents.  The git side effects performed by `append`,
`remove` and `clear` (checkout, create, delete) do not change the list
contents and are not part of this state. -/
structure BranchesM where
  feature : Option (List Char)
  elems : List (List Char)
deriving DecidableEq

/-- `Branches.__init__`: start empty, then `append` the feature branch
when one is given (a falsy feature branch appends nothing). -/
def BranchesM.init (f : Option (List Char)) : BranchesM :=
  ⟨f, match f with | some b => [b] | none => []⟩

/-- `Branches.append`: `super().append(branch)` — the branch is recorded
at the end of the list. -/
def BranchesM.appendBr (b : BranchesM) (x : List Char) : BranchesM :=
  ⟨b.feature, b.elems ++ [x]⟩

/-- `Branches.remove`: `super().remove(branch)` — the first occurrence
of the branch is removed from the list (on an absent branch Python
raises and the state is unchanged, which `List.erase` also models). -/
def BranchesM.removeBr (b : BranchesM) (x : List Char) : BranchesM :=
  ⟨b.feature, b.elems.erase x⟩

/-- The successive states produced by `Branches.clear`, which iterates
over a snapshot (`self.copy()`) of the current contents and removes each
member in order; element `i` is the state after `i + 1` removals. -/
def BranchesM.removeSeq : BranchesM → List (List Char) → List BranchesM
  | _, [] => []
  | b, x :: rest =>
    let b2 := b.removeBr x
    b2 :: BranchesM.removeSeq b2 rest

/-- All intermediate states of `Branches.clear`. -/
def BranchesM.clearStates (b : BranchesM) : List BranchesM :=
  b.removeSeq b.elems

/-- The invariant claimed for the Branch Mirror: when a feature branch is
set and the mirror is non-empty, the feature branch is element 0. -/
def BranchesM.featureFirst (b : BranchesM) : Bool :=
  match b.feature with
  | none => true
  | some f => b.elems.isEmpty || b.elems.head? == some f

/-- C5 counterexample: for the mirror built by constructing with feature
branch `feat` and appending one coder branch, the first intermediate
state inside `clear` (after the snapshot's first removal, which removes
the feature branch itself) is non-empty with a non-feature element 0,
so the claimed invariant fails between the removals of `clear`. -/
theorem c5_counterexample :
    (BranchesM.clearStates
        ((BranchesM.init (some ("feat").toList)).appendBr ("coder").toList)).head?
      = some ⟨some ("feat").toList, [("coder").toList]⟩ ∧
    BranchesM.featureFirst ⟨some ("feat").toList, [("coder").toList]⟩ = false := by
  constructor
  · rfl
  · rfl

theorem removeSeq_last_elems : ∀ (l : List (List Char)) (b : BranchesM),
    b.elems = l → ((BranchesM.removeSeq b l).getLastD b).elems = [] := by
  intro l
  induction l with
  | nil => intro b hb; simpa [BranchesM.removeSeq] using hb
  | cons x rest ih =>
    intro b hb
    have hstep : (b.removeBr x).elems = rest := by
      simp [BranchesM.removeBr, hb, List.erase_cons_head]
    simp only [BranchesM.removeSeq, List.getLastD_cons]
    exact ih (b.removeBr x) hstep

/-- C5 amended: the invariant (feature branch at element 0 when
non-empty) holds after construction with a feature branch, is preserved
by `append` whenever the mirror is non-empty, is preserved by `remove`
whenever the removed branch is not the feature branch, and `clear` ends
with an empty mirror; the invariant does not extend to the intermediate
states inside `clear` (see the counterexample). -/
theorem c5_amended (f : List Char) (b : BranchesM) (x : List Char) :
    BranchesM.featureFirst (BranchesM.init (some f)) = true ∧
    (BranchesM.featureFirst b = true → b.elems ≠ [] →
      BranchesM.featureFirst (b.appendBr x) = true) ∧
    (BranchesM.featureFirst b = true → some x ≠ b.feature →
      BranchesM.featureFirst (b.removeBr x) = true) ∧
    ((BranchesM.clearStates b).getLastD b).elems = [] := by
  refine ⟨?_, ?_, ?_, removeSeq_last_elems b.elems b rfl⟩
  · simp [BranchesM.featureFirst, BranchesM.init]
  · intro hff hne
    unfold BranchesM.featureFirst at hff ⊢
    match hfeat : b.feature with
    | none => rfl
    | some fb =>
      rw [hfeat] at hff
      match helems : b.elems with
      | [] => exact absurd helems hne
      | e :: t =>
        rw [helems] at hff
        simp only [List.isEmpty_cons, Bool.false_or, List.head?_cons, beq_iff_eq,
          Option.some.injEq] at hff
        simp [BranchesM.appendBr, hfeat, helems, hff]
  · intro hff hx
    unfold BranchesM.featureFirst at hff ⊢
    match hfeat : b.feature with
    | none => rfl
    | some fb =>
      rw [hfeat] at hff
      match helems : b.elems with
      | [] => simp [BranchesM.removeBr, helems]
      | e :: t =>
        rw [helems] at hff
        simp only [List.isEmpty_cons, Bool.false_or, List.head?_cons, beq_iff_eq,
          Option.some.injEq] at hff
        subst hff
        rw [hfeat] at hx
        have hxe : x ≠ e := by
          intro hxx
          exact hx (by rw [hxx])
        simp [BranchesM.removeBr, helems, List.erase_cons, if_neg (by simpa using hxe.symm)]

/-- C5 amended witness: the preservation clauses applied to a concrete
mirror state. -/
theorem c5_amended_witness :
    BranchesM.featureFirst
        ((⟨some ("feat").toList, [("feat").toList]⟩ : BranchesM).appendBr ("c1").toList)
      = true :=
  (c5_amended ("feat").toList ⟨some ("feat").toList, [("feat").toList]⟩ ("c1").toList).2.1
    (by decide) (by decide)

/-! ## handler/coding.py — note splitting (HandlerCoding._process_note)

The configured task-branch-reference pattern (from the repository's test
configuration) is the regex `task_branch:[\s]*([\p{L}\p{N}_\-\.\/]+)`,
and `_process_note` splits a note body with
`((^|pattern).*?)(?=pattern|$)` under DOTALL, then matches, strips and
dispatches each sub-note.  The regex engine is embedded as the explicit
scanning functions below (letters and digits are modelled at the ASCII
subset the repository's branch names use; `$` matches at end of text and
before a trailing newline, as in Python's default mode). -/

/-- Python `[\s]` on the ASCII range. -/
def isSpaceChar (c : Char) : Bool :=
  c == ' ' || c == '\t' || c == '\n' || c == '\r' ||
    c == Char.ofNat 11 || c == Char.ofNat 12

/-- The branch-name character class `[\p{L}\p{N}_\-\.\/]`. -/
def isNameChar (c : Char) : Bool :=
  c.isAlpha || c.isDigit || c == '_' || c == '-' || c == '.' || c == '/'

/-- The literal part of the task-branch-reference pattern. -/
def taskLit : List Char := ("task_branch:").toList

/-- One anchored match of the task-branch-reference pattern
`task_branch:[\s]*([, name chars ]+)`: consume the literal, then greedily
the whitespace run, then greedily at least one name character; return
the captured name and the unconsumed rest. -/
def matchTask (s : List Char) : Option (List Char × List Char) :=
  match dropLit taskLit s with
  | none => none
  | some s1 =>
    let s2 := s1.dropWhile isSpaceChar
    let name := s2.takeWhile isNameChar
    if name.isEmpty then none else some (name, s2.drop name.length)

/-- Does the task pattern match at position `i` of `s`? -/
def occAt (s : List Char) (i : Nat) : Bool :=
  (matchTask (s.drop i)).isSome

/-- End position (in `s`) of the task-pattern match starting at `i`
(meaningful only when `occAt s i`). -/
def matchEnd (s : List Char) (i : Nat) : Nat :=
  match matchTask (s.drop i) with
  | some (_, after) => s.length - after.length
  | none => i

/-- Python's `$` (no MULTILINE): end of text, or just before a trailing
newline. -/
def dollarAt (s : List Char) (e : Nat) : Bool :=
  e == s.length || (e + 1 == s.length && s.getD e ' ' == '\n')

/-- A position where the lazy `.*?` of the sub-note pattern may stop:
the lookahead `(?=pattern|$)` succeeds. -/
def stopAt (s : List Char) (e : Nat) : Bool :=
  occAt s e || dollarAt s e

/-- Smallest stop position at or after `i` (fuelled scan; the fuel
`s.length + 1` always suffices). -/
def nextStopF (s : List Char) : Nat → Nat → Nat
  | 0, _ => s.length
  | fuel + 1, i =>
    if s.length ≤ i then s.length
    else if stopAt s i then i else nextStopF s fuel (i + 1)

def nextStop (s : List Char) (i : Nat) : Nat :=
  nextStopF s (s.length + 1) i

/-- The sub-note chunks starting at pattern occurrence `p`: each chunk
runs from its occurrence through the lazy stop after the end of that
occurrence's match. -/
def chunksFromF (s : List Char) : Nat → Nat → List (List Char)
  | 0, _ => []
  | fuel + 1, p =>
    if s.length ≤ p then []
    else
      match matchTask (s.drop p) with
      | none => []
      | some (_, after) =>
        let q := s.length - after.length
        let e := nextStop s q
        ((s.drop p).take (e - p)) :: chunksFromF s fuel e

def chunksFrom (s : List Char) (p : Nat) : List (List Char) :=
  chunksFromF s (s.length + 1) p

/-- `pattern.findall` for `((^|task).*?)(?=task|$)` with the empty
first-group matches filtered out, as `_process_note` does with
`if sn[0]`: an initial chunk anchored at `^` (skipping the zero-width
first match when the lookahead already succeeds at position 0), then the
chunks at each subsequent pattern occurrence. -/
def subNotes (s : List Char) : List (List Char) :=
  let start := if stopAt s 0 then 1 else 0
  let e1 := nextStop s start
  let first := s.take e1
  (if first.isEmpty then [] else [first]) ++ chunksFrom s e1

/-- `re.findall(task_pattern, sub_note)`: non-overlapping left-to-right
scan collecting the captured branch names. -/
def findTaskRefsF : Nat → List Char → List (List Char)
  | 0, _ => []
  | _ + 1, [] => []
  | fuel + 1, c :: rest =>
    match matchTask (c :: rest) with
    | some (name, after) => name :: findTaskRefsF fuel after
    | none => findTaskRefsF fuel rest

def findTaskRefs (s : List Char) : List (List Char) :=
  findTaskRefsF (s.length + 1) s

/-- One anchored match of the stripping pattern
`task_pattern(?:[,;]?[\s]*)` used by `re.split` in `_process_note`:
the task pattern, then optionally one comma or semicolon, then a
whitespace run; returns the unconsumed rest. -/
def matchTaskExt (s : List Char) : Option (List Char) :=
  match matchTask s with
  | none => none
  | some (_, after) =>
    let after2 := match after with
      | c :: tail => if c == ',' || c == ';' then tail else c :: tail
      | [] => []
    some (after2.dropWhile isSpaceChar)

/-- Scan for the suffix following the last non-overlapping match of the
stripping pattern; with no match the whole text is returned.  This is
`re.split(task_pattern + punctuation, sub_note)[-1]`. -/
def afterLastRefF : Nat → List Char → List Char → List Char
  | 0, acc, _ => acc
  | _ + 1, acc, [] => acc
  | fuel + 1, acc, c :: rest =>
    match matchTaskExt (c :: rest) with
    | some after => afterLastRefF fuel after after
    | none => afterLastRefF fuel acc rest

def splitStrip (s : List Char) : List Char :=
  afterLastRefF (s.length + 1) s s

/-- The action carried by a note payload. -/
inductive NAction
  | add
  | remove
deriving DecidableEq

/-- A note identity: (note-object id, annotated-object id). -/
abbrev NoteId := String × String

/-- One message `{topic, payload: {action, note, note_message}}` sent to
`symergion.update` by `_process_note`. -/
structure NoteMsg where
  topic : List Char
  action : NAction
  note : NoteId
  message : List Char
deriving DecidableEq

/-- How one `_process_note` call ends: normally, with the non-fatal
zero-branches warning, or with a raised `ValueError` (fatal). -/
inductive POutcome
  | ok
  | warned
  | fatal
deriving DecidableEq

/-- `utils/flatten.py`: flatten a two-level nested list. -/
def flatten {α : Type} (nested : List (List α)) : List α :=
  nested.foldl (fun acc e => acc ++ e) []

/-- The per-sub-note loop of `_process_note`, with the emitted messages
accumulated (each `symergion.update` call appends one message) and the
pool of resolved branches threaded through `pop`.  A raised `ValueError`
ends the loop with the messages emitted so far (no rollback); the
`IndexError` that `noted_branches[0]` would raise on an empty pool is
also a fatal abort. -/
def processSubNotes (note : NoteId) (action : NAction)
    (allRefs : List (List (List Char))) :
    Nat → List (List Char) → List (List Char × List (List Char)) →
      List NoteMsg → List NoteMsg × POutcome
  | _, _, [], acc => (acc, POutcome.ok)
  | idx, pool, (sn, nb) :: rest, acc =>
    if 1 < nb.length then (acc, POutcome.fatal)
    else if nb.length = 0 ∧ 0 < idx then (acc, POutcome.fatal)
    else if nb = [] ∧ idx = 0 then
      match pool with
      | [] => (acc, POutcome.fatal)
      | p0 :: ptail =>
        if p0 ∈ flatten allRefs then (acc, POutcome.fatal)
        else
          processSubNotes note action allRefs (idx + 1) ptail rest
            (acc ++ [⟨p0, action, note, sn⟩])
    else
      match nb with
      | [b] =>
        if b ∈ pool then
          processSubNotes note action allRefs (idx + 1) (pool.erase b) rest
            (acc ++ [⟨b, action, note, splitStrip sn⟩])
        else (acc, POutcome.fatal)
      | _ => (acc, POutcome.fatal)

/-- The observable inputs `_process_note` reads from the Repository
Gateway for one note: `repo.get_note_branches(note)` and
`repo.get_note_message(note)`. -/
structure NoteEnv where
  notedBranches : List (List Char)
  noteMessage : List Char

/-- `HandlerCoding._process_note`: warn and emit nothing when no branch
resolves; otherwise split the message into sub-notes, match each against
the branch references, and run the dispatch loop. -/
def processNote (env : NoteEnv) (note : NoteId) (action : NAction) :
    List NoteMsg × POutcome :=
  if env.notedBranches.length < 1 then ([], POutcome.warned)
  else
    let subs := subNotes env.noteMessage
    let refs := subs.map findTaskRefs
    processSubNotes note action refs 0 env.notedBranches (subs.zip refs) []

/-- The gateway observations for the specification's note-split example:
resolvable branch pool `[featureA, featureB]` and the composite body. -/
def c3Env : NoteEnv :=
  ⟨[("featureA").toList, ("featureB").toList],
   ("task_branch: featureA first instructiontask_branch: featureB second instruction").toList⟩

/-- C3: splitting the example note emits exactly two messages, first
`(featureA, "first instruction")` then `(featureB, "second
instruction")`, each stripped of its leading delimiter and branch name,
in the order the delimiters occur in the body, and the pass ends
normally. -/
theorem c3_note_split_example :
    processNote c3Env ("n", "o") NAction.add =
      ([⟨("featureA").toList, NAction.add, ("n", "o"), ("first instruction").toList⟩,
        ⟨("featureB").toList, NAction.add, ("n", "o"), ("second instruction").toList⟩],
       POutcome.ok) := by decide

/-- C7: the error paths of `_process_note`.  With an empty resolved
branch pool the call warns and emits nothing.  In the sub-note loop, a
sub-note whose reference list has two or more entries, or zero entries
at an index greater than 0, aborts fatally, and the returned message
list is exactly the accumulator of messages already emitted for earlier
sub-notes — they stay applied, there is no rollback. -/
theorem c7_note_error_handling :
    (∀ (env : NoteEnv) (note : NoteId) (action : NAction),
      env.notedBranches = [] →
        processNote env note action = ([], POutcome.warned)) ∧
    (∀ (note : NoteId) (action : NAction) (allRefs : List (List (List Char)))
        (idx : Nat) (pool : List (List Char)) (sn : List Char)
        (nb : List (List Char)) (rest : List (List Char × List (List Char)))
        (acc : List NoteMsg),
      2 ≤ nb.length →
        processSubNotes note action allRefs idx pool ((sn, nb) :: rest) acc
          = (acc, POutcome.fatal)) ∧
    (∀ (note : NoteId) (action : NAction) (allRefs : List (List (List Char)))
        (idx : Nat) (pool : List (List Char)) (sn : List Char)
        (rest : List (List Char × List (List Char))) (acc : List NoteMsg),
      0 < idx →
        processSubNotes note action allRefs idx pool ((sn, ([] : List (List Char))) :: rest) acc
          = (acc, POutcome.fatal)) := by
  refine ⟨?_, ?_, ?_⟩
  · intro env note action henv
    unfold processNote
    rw [if_pos (by rw [henv]; decide)]
  · intro note action allRefs idx pool sn nb rest acc hlen
    unfold processSubNotes
    rw [if_pos (by omega)]
  · intro note action allRefs idx pool sn rest acc hidx
    unfold processSubNotes
    rw [if_neg (by simp), if_pos (by simp [hidx])]

/-- C7 witness: the warning case and a fatal two-reference sub-note, the
latter with a non-empty accumulator showing the earlier messages are
retained. -/
theorem c7_note_error_handling_witness :
    processNote ⟨[], ("task_branch: a x").toList⟩ ("n", "o") NAction.remove
        = ([], POutcome.warned) ∧
    processSubNotes ("n", "o") NAction.remove [] 1 [("a").toList]
        [(("x").toList, [("a").toList, ("b").toList])]
        [⟨("a").toList, NAction.remove, ("n", "o"), ("done").toList⟩]
      = ([⟨("a").toList, NAction.remove, ("n", "o"), ("done").toList⟩], POutcome.fatal) :=
  ⟨c7_note_error_handling.1 ⟨[], ("task_branch: a x").toList⟩ ("n", "o") NAction.remove rfl,
   c7_note_error_handling.2.1 ("n", "o") NAction.remove [] 1 [("a").toList] ("x").toList
     [("a").toList, ("b").toList] []
     [⟨("a").toList, NAction.remove, ("n", "o"), ("done").toList⟩] (by decide)⟩

/-! ## handler/coding.py — branch reconciliation
(`HandlerCoding._check_for_branches`, removed-branch loop) -/

/-- A message observed by the Orchestrator (`symergion.update`): either a
branch message `{topic: branch, payload: nil}` or a note-payload message
from `_process_note`. -/
inductive OMsg
  | branchRemoval (topic : List Char)
  | noteMsg (m : NoteMsg)
deriving DecidableEq

def OMsg.isNoteMsg : OMsg → Bool
  | OMsg.noteMsg _ => true
  | _ => false

/-- Process a list of notes through `_process_note`, appending each
call's emitted messages to the trace; a raised `ValueError` propagates,
ending the loop with the messages emitted so far. -/
def processNotesSeq (env : NoteId → NoteEnv) (action : NAction) :
    List NoteId → List OMsg → List OMsg × POutcome
  | [], acc => (acc, POutcome.ok)
  | n :: rest, acc =>
    match processNote (env n) n action with
    | (msgs, POutcome.fatal) => (acc ++ msgs.map OMsg.noteMsg, POutcome.fatal)
    | (msgs, _) => processNotesSeq env action rest (acc ++ msgs.map OMsg.noteMsg)

/-- The body of the removed-branch loop in `_check_for_branches`: select
the notes whose resolved branches contain the removed branch, emit the
branch-removal message `{topic: branch, payload: nil}`, then process
each selected note with action `remove`.  The returned list is the trace
of `symergion.update` calls in order. -/
def processRemovedBranch (env : NoteId → NoteEnv) (allNotes : List NoteId)
    (branch : List Char) : List OMsg × POutcome :=
  processNotesSeq env NAction.remove
    (allNotes.filter (fun n => branch ∈ (env n).notedBranches))
    [OMsg.branchRemoval branch]

/-- A concrete reconciliation environment: two notes, each annotating an
object reachable only from branch `b`, each with a one-instruction body
addressed to `b`. -/
def c1Env : NoteId → NoteEnv :=
  fun _ => ⟨[("b").toList], ("task_branch: b do it").toList⟩

def c1Notes : List NoteId := [("n1", "o1"), ("n2", "o2")]

/-- C1 counterexample: for a removed branch annotated by 2 notes, the
handler emits the branch-removal message first and the 2 remove-note
messages after it, so the claimed ordering (every remove-note message
strictly before the branch-removal message) fails on this input. -/
theorem c1_counterexample :
    (processRemovedBranch c1Env c1Notes ("b").toList).1
      = [OMsg.branchRemoval ("b").toList,
         OMsg.noteMsg ⟨("b").toList, NAction.remove, ("n1", "o1"), ("do it").toList⟩,
         OMsg.noteMsg ⟨("b").toList, NAction.remove, ("n2", "o2"), ("do it").toList⟩] ∧
    ¬ (∀ i < (processRemovedBranch c1Env c1Notes ("b").toList).1.length,
        ∀ k < (processRemovedBranch c1Env c1Notes ("b").toList).1.length,
          ((processRemovedBranch c1Env c1Notes ("b").toList).1.getD i
              (OMsg.branchRemoval [])).isNoteMsg = true →
          (processRemovedBranch c1Env c1Notes ("b").toList).1.getD k
              (OMsg.branchRemoval []) = OMsg.branchRemoval ("b").toList →
          i < k) := by
  constructor
  · decide
  · decide

theorem processSubNotes_action (note : NoteId) (action : NAction)
    (allRefs : List (List (List Char))) :
    ∀ (subs : List (List Char × List (List Char))) (idx : Nat)
      (pool : List (List Char)) (acc : List NoteMsg),
      ∀ m ∈ (processSubNotes note action allRefs idx pool subs acc).1,
        m ∈ acc ∨ m.action = action := by
  intro subs
  induction subs with
  | nil =>
    intro idx pool acc m hm
    exact Or.inl hm
  | cons hd rest ih =>
    intro idx pool acc m hm
    rcases hd with ⟨sn, nb⟩
    simp only [processSubNotes] at hm
    split_ifs at hm with h1 h2 h3
    · exact Or.inl hm
    · exact Or.inl hm
    · split at hm
      · exact Or.inl hm
      · rename_i p0 ptail
        by_cases hp : p0 ∈ flatten allRefs
        · rw [if_pos hp] at hm
          exact Or.inl hm
        · rw [if_neg hp] at hm
          rcases ih (idx + 1) ptail (acc ++ [⟨p0, action, note, sn⟩]) m hm with hin | hact
          · rcases List.mem_append.mp hin with hin | hin
            · exact Or.inl hin
            · right
              rw [List.mem_singleton.mp hin]
          · exact Or.inr hact
    · split at hm
      · rename_i b
        by_cases hb : b ∈ pool
        · rw [if_pos hb] at hm
          rcases ih (idx + 1) (pool.erase b) (acc ++ [⟨b, action, note, splitStrip sn⟩]) m hm
            with hin | hact
          · rcases List.mem_append.mp hin with hin | hin
            · exact Or.inl hin
            · right
              rw [List.mem_singleton.mp hin]
          · exact Or.inr hact
        · rw [if_neg hb] at hm
          exact Or.inl hm
      · exact Or.inl hm

theorem processNote_action (env : NoteEnv) (note : NoteId) (action : NAction) :
    ∀ m ∈ (processNote env note action).1, m.action = action := by
  intro m hm
  unfold processNote at hm
  by_cases hlen : env.notedBranches.length < 1
  · rw [if_pos hlen] at hm
    exact absurd hm (List.not_mem_nil m)
  · rw [if_neg hlen] at hm
    rcases processSubNotes_action note action
      ((subNotes env.noteMessage).map findTaskRefs)
      ((subNotes env.noteMessage).zip ((subNotes env.noteMessage).map findTaskRefs))
      0 env.notedBranches [] m hm with hin | hact
    · exact absurd hin (List.not_mem_nil m)
    · exact hact

theorem processNotesSeq_structure (env : NoteId → NoteEnv) (action : NAction) :
    ∀ (ns : List NoteId) (acc : List OMsg),
      ∃ extra, (processNotesSeq env action ns acc).1 = acc ++ extra ∧
        ∀ m ∈ extra, ∃ g, m = OMsg.noteMsg g ∧ g.action = action := by
  intro ns
  induction ns with
  | nil =>
    intro acc
    exact ⟨[], by simp [processNotesSeq], by simp⟩
  | cons n rest ih =>
    intro acc
    have hmsgs : ∀ m ∈ ((processNote (env n) n action).1.map OMsg.noteMsg),
        ∃ g, m = OMsg.noteMsg g ∧ g.action = action := by
      intro m hm
      rcases List.mem_map.mp hm with ⟨g, hg, rfl⟩
      exact ⟨g, rfl, processNote_action (env n) n action g hg⟩
    rcases hpn : processNote (env n) n action with ⟨msgs, out⟩
    rw [hpn] at hmsgs
    cases out with
    | fatal =>
      refine ⟨msgs.map OMsg.noteMsg, ?_, ?_⟩
      · simp only [processNotesSeq, hpn]
      · exact hmsgs
    | ok =>
      rcases ih (acc ++ msgs.map OMsg.noteMsg) with ⟨extra2, hex, hall⟩
      refine ⟨msgs.map OMsg.noteMsg ++ extra2, ?_, ?_⟩
      · simp only [processNotesSeq, hpn, hex, List.append_assoc]
      · intro m hm
        rcases List.mem_append.mp hm with hin | hin
        · exact hmsgs m hin
        · exact hall m hin
    | warned =>
      rcases ih (acc ++ msgs.map OMsg.noteMsg) with ⟨extra2, hex, hall⟩
      refine ⟨msgs.map OMsg.noteMsg ++ extra2, ?_, ?_⟩
      · simp only [processNotesSeq, hpn, hex, List.append_assoc]
      · intro m hm
        rcases List.mem_append.mp hm with hin | hin
        · exact hmsgs m hin
        · exact hall m hin

/-- C1 amended: in the removed-branch loop of `_check_for_branches`, the
branch-removal message `{topic: branch, payload: nil}` is emitted first,
strictly before every remove-note message of the branch's annotating
notes (the reverse of the claimed order); on the concrete two-note
environment exactly 2 remove-note messages follow it. -/
theorem c1_removed_branch_order :
    (∀ (env : NoteId → NoteEnv) (allNotes : List NoteId) (branch : List Char),
      (processRemovedBranch env allNotes branch).1.head?
          = some (OMsg.branchRemoval branch) ∧
      (∀ m ∈ (processRemovedBranch env allNotes branch).1.tail,
        ∃ g, m = OMsg.noteMsg g ∧ g.action = NAction.remove)) ∧
    (processRemovedBranch c1Env c1Notes ("b").toList).1
      = [OMsg.branchRemoval ("b").toList,
         OMsg.noteMsg ⟨("b").toList, NAction.remove, ("n1", "o1"), ("do it").toList⟩,
         OMsg.noteMsg ⟨("b").toList, NAction.remove, ("n2", "o2"), ("do it").toList⟩] := by
  constructor
  · intro env allNotes branch
    rcases processNotesSeq_structure env NAction.remove
        (allNotes.filter (fun n => branch ∈ (env n).notedBranches))
        [OMsg.branchRemoval branch] with ⟨extra, hex, hall⟩
    unfold processRemovedBranch
    rw [hex]
    constructor
    · rfl
    · intro m hm
      exact hall m (by simpa using hm)
  · decide

/-- C1 amended witness: the general ordering fact applied to the
concrete two-note environment. -/
theorem c1_removed_branch_order_witness :
    (processRemovedBranch c1Env c1Notes ("b").toList).1.head?
      = some (OMsg.branchRemoval ("b").toList) :=
  ((c1_removed_branch_order.1 c1Env c1Notes ("b").toList)).1

/-! ## symergion/coding.py — SymErgionCoding._update_with_payload
(note-ledger toggle) -/

/-- The final statements of `_update_with_payload`: append the payload's
note to the Task's ledger when absent, otherwise remove it (Python
`list.remove`, the first occurrence). -/
def toggleNote (ledger : List NoteId) (n : NoteId) : List NoteId :=
  if n ∉ ledger then ledger ++ [n] else ledger.erase n

/-- The Task state touched by `_update_with_payload`: the Prompt
(`none` before the initial note, otherwise its fragment list) and the
note ledger.  The notification messages and the model-branch teardown
are side effects on other components and are not part of this state. -/
structure TaskState where
  prompt : Option (List (List Char))
  notes : List NoteId
deriving DecidableEq

/-- Python truthiness of `ergon.prompt`: a present, non-empty Prompt. -/
def promptTruthy (p : Option (List (List Char))) : Bool :=
  match p with
  | none => false
  | some l => !l.isEmpty

/-- `SymErgionCoding._update_with_payload` on the Task state.  The
initial-note branch parses the note into a Prompt and enriches it with
reasoning through external collaborators (file system, reasoner
endpoints); that step is the `setPrompt` parameter, whose `Except.error`
is the fatal error it can raise.  The final unresolvable branch raises
`ValueError`.  On every non-fatal path the ledger is toggled. -/
def updateWithPayload (setPrompt : List Char → Except Unit (List (List Char)))
    (st : TaskState) (noteMessage : List Char) (note : NoteId) :
    Except Unit TaskState :=
  if promptTruthy st.prompt ∧ noteMessage ∉ st.prompt.getD [] then
    Except.ok ⟨some (st.prompt.getD [] ++ [noteMessage]), toggleNote st.notes note⟩
  else if ¬ promptTruthy st.prompt then
    match setPrompt noteMessage with
    | Except.ok l => Except.ok ⟨some l, toggleNote st.notes note⟩
    | Except.error e => Except.error e
  else if noteMessage ∈ (st.prompt.getD []).tail then
    Except.ok ⟨some ((st.prompt.getD []).erase noteMessage), toggleNote st.notes note⟩
  else if (st.prompt.getD []).head? = some noteMessage then
    Except.ok ⟨some ((st.prompt.getD []).erase noteMessage), toggleNote st.notes note⟩
  else Except.error ()

theorem toggleNote_mem_nodup (l : List NoteId) (n : NoteId) (h : l.Nodup) :
    (n ∈ toggleNote l n ↔ n ∉ l) ∧ (toggleNote l n).Nodup := by
  unfold toggleNote
  by_cases hn : n ∈ l
  · rw [if_neg (by simpa using hn)]
    constructor
    · constructor
      · intro hmem
        exact absurd rfl ((List.Nodup.mem_erase_iff h).mp hmem).1
      · intro hmem
        exact absurd hn hmem
    · exact h.erase n
  · rw [if_pos hn]
    constructor
    · simp [hn]
    · simp [List.nodup_append, h, hn]

theorem updateWithPayload_notes (setPrompt : List Char → Except Unit (List (List Char)))
    (st : TaskState) (noteMessage : List Char) (note : NoteId) (st2 : TaskState)
    (hok : updateWithPayload setPrompt st noteMessage note = Except.ok st2) :
    st2.notes = toggleNote st.notes note := by
  unfold updateWithPayload at hok
  split_ifs at hok
  all_goals try split at hok
  all_goals
    first
      | (have hinj := Except.ok.inj hok
         rw [← hinj])
      | exact absurd hok (by simp)

/-- C8: whenever a note-payload update is handled without a fatal error,
the Task's ledger afterwards contains the payload's note exactly when it
did not contain it before, and a duplicate-free ledger stays
duplicate-free; consequently a ledger built from the empty ledger by
such updates never contains the same note twice. -/
theorem c8_note_ledger_toggle :
    (∀ (setPrompt : List Char → Except Unit (List (List Char))) (st : TaskState)
        (noteMessage : List Char) (note : NoteId) (st2 : TaskState),
      st.notes.Nodup →
      updateWithPayload setPrompt st noteMessage note = Except.ok st2 →
      ((note ∈ st2.notes ↔ note ∉ st.notes) ∧ st2.notes.Nodup)) ∧
    (∀ ops : List NoteId, (ops.foldl toggleNote []).Nodup) := by
  constructor
  · intro setPrompt st noteMessage note st2 hnodup hok
    rw [updateWithPayload_notes setPrompt st noteMessage note st2 hok]
    exact toggleNote_mem_nodup st.notes note hnodup
  · intro ops
    have hgen : ∀ (ops : List NoteId) (l : List NoteId), l.Nodup →
        (ops.foldl toggleNote l).Nodup := by
      intro ops
      induction ops with
      | nil => intro l hl; simpa
      | cons o rest ih =>
        intro l hl
        exact ih (toggleNote l o) (toggleNote_mem_nodup l o hl).2
    exact hgen ops [] (by simp)

/-- C8 witness: a concrete non-fatal update (appending to a non-empty
prompt) toggles a concrete note into an empty ledger. -/
theorem c8_note_ledger_toggle_witness :
    ("n1", "o1") ∈ (⟨some [("init").toList, ("frag").toList], [("n1", "o1")]⟩ : TaskState).notes ↔
      ("n1", "o1") ∉ (⟨some [("init").toList], []⟩ : TaskState).notes := by
  have h := c8_note_ledger_toggle.1 (fun _ => Except.error ())
    ⟨some [("init").toList], []⟩ ("frag").toList ("n1", "o1")
    ⟨some [("init").toList, ("frag").toList], [("n1", "o1")]⟩ (by simp) rfl
  exact h.1
